import Mathlib

/-!
Verification of the Lychee global keybinding manager.

This file is a shallow embedding of `src/lib/keybindings.ts` (the
`KeyBindingManager` class) and of the key-capture handler of
`src/components/SettingsModal.tsx`, together with proofs about the
embedded operations.

Modelling conventions:
* A JS `Map` is an insertion-ordered association list; `Map.set` replaces
  an existing entry in place and otherwise appends, `Map.get` returns the
  entry's value, `Map.delete` removes the entry.
* Optional boolean fields of `KeyBinding` (`ctrl?`, `shift?`, `alt?`) are
  modelled as `Bool`, with `false` standing for an absent field: every
  observation the manager makes of these fields (`if (binding.ctrl)`,
  `!!b.ctrl`, the `??` defaults) identifies `undefined` with `false`.
* `localStorage` holds a single record under the manager's storage key; it
  is modelled structurally: either no value is present, or the stored
  string fails `JSON.parse`, or it parses to a record of per-action
  partial overrides (in object key order).
* `String.prototype.toLowerCase` is modelled character by character with
  `Char.toLower`; the two agree on the ASCII key names the app uses.
-/

namespace Lychee

/-- JS `String.prototype.toLowerCase`, character by character. -/
def jsToLower (s : String) : String := ⟨s.data.map Char.toLower⟩

/-- JS `Map.get`: the value of the (unique) entry with key `k`. -/
def mapGet {α : Type} : List (String × α) → String → Option α
  | [], _ => none
  | p :: rest, k => if p.1 = k then some p.2 else mapGet rest k

/-- JS `Map.set`: replace the entry in place if the key is present, else append. -/
def mapSet {α : Type} : List (String × α) → String → α → List (String × α)
  | [], k, v => [(k, v)]
  | p :: rest, k, v => if p.1 = k then (k, v) :: rest else p :: mapSet rest k v

/-- JS `Map.delete`: remove the entry with key `k`.  Keys are unique in every
map the manager builds, so removing every match coincides with removing
the one entry. -/
def mapDelete {α : Type} : List (String × α) → String → List (String × α)
  | [], _ => []
  | p :: rest, k => if p.1 = k then mapDelete rest k else p :: mapDelete rest k

/-- The keys of a map, in insertion order. -/
def mapKeys {α : Type} (m : List (String × α)) : List String := m.map Prod.fst

/-- `interface KeyBinding` of `keybindings.ts`. -/
structure KeyBinding where
  key : String
  ctrl : Bool
  shift : Bool
  alt : Bool
  action : String
  description : String
deriving DecidableEq, Repr

/-- `export const defaultKeybindings` of `keybindings.ts`. -/
def defaultKeybindings : List KeyBinding :=
  [ ⟨"a", true, false, false, "CREATE_NOTE", "Create new note"⟩,
    ⟨"q", true, false, false, "RETURN_TO_VIEW", "Return from edit to view note"⟩,
    ⟨"h", true, false, false, "RETURN_TO_NOTES", "Return to All Notes menu"⟩,
    ⟨"b", true, false, false, "OPEN_SETTINGS", "Settings Menu"⟩,
    ⟨"x", true, false, false, "OPEN_EXPORT", "Export menu"⟩,
    ⟨"z", true, false, false, "UNDO", "Undo"⟩,
    ⟨"z", true, true, false, "REDO", "Redo"⟩,
    ⟨"t", true, true, false, "OPEN_THEME_DROPDOWN", "Open Theme Dropdown"⟩,
    ⟨"s", true, false, false, "OPEN_SPOTLIGHT_SEARCH", "Search for text (Spotlight)"⟩,
    ⟨"t", true, false, false, "OPEN_TAG_SEARCH", "Search for tags (Spotlight)"⟩ ]

/-- `KeyBindingManager.getBindingKey`: the ComboEncoder.  Modifier names in
the fixed order ctrl, shift, alt joined by `+`, then `-`, then the key
symbol exactly as stored (no lowercasing happens here). -/
def getBindingKey (b : KeyBinding) : String :=
  let modifiers :=
    (if b.ctrl then ["ctrl"] else []) ++
    (if b.shift then ["shift"] else []) ++
    (if b.alt then ["alt"] else [])
  String.intercalate "+" modifiers ++ "-" ++ b.key

/-- The persisted per-action partial override record
(`Record<string, Partial<KeyBinding>>` entries). -/
structure Override where
  key : Option String
  ctrl : Option Bool
  shift : Option Bool
  alt : Option Bool
deriving DecidableEq, Repr

/-- The content of `localStorage` under the manager's storage key:
no value, a string `JSON.parse` rejects, or the parsed override record
(entries in object key order). -/
inductive StoredValue where
  | absent
  | unparsable
  | record (entries : List (String × Override))
deriving DecidableEq, Repr

/-- The mutable state of a `KeyBindingManager` instance: the combo index
`bindings` (encoded combo → binding), the action index `actionToBinding`,
the immutable `defaultByAction` snapshot, and the persisted value. -/
structure ManagerState where
  bindings : List (String × KeyBinding)
  actionToBinding : List (String × KeyBinding)
  defaultByAction : List (String × KeyBinding)
  storage : StoredValue
deriving DecidableEq, Repr

/-- A manager whose three maps are empty, over a given store content. -/
def emptyState (v : StoredValue) : ManagerState := ⟨[], [], [], v⟩

/-- `KeyBindingManager.loadDefaultBindings`: populate all three maps from
the default table. -/
def loadDefaultBindings (s : ManagerState) : ManagerState :=
  defaultKeybindings.foldl (fun t b =>
    { t with
      bindings := mapSet t.bindings (getBindingKey b) b,
      actionToBinding := mapSet t.actionToBinding b.action b,
      defaultByAction := mapSet t.defaultByAction b.action b }) s

/-- `KeyBindingManager.applyBinding`: delete the action's old combo-index
entry, then insert the new binding into both indices. -/
def applyBinding (s : ManagerState) (action : String) (binding : KeyBinding) : ManagerState :=
  let bs :=
    match mapGet s.actionToBinding action with
    | some existing => mapDelete s.bindings (getBindingKey existing)
    | none => s.bindings
  { s with
    bindings := mapSet bs (getBindingKey binding) binding,
    actionToBinding := mapSet s.actionToBinding action binding }

/-- `KeyBindingManager.hasConflict`: true iff the combo index holds an entry
for the candidate's encoding whose action differs from `exceptAction`. -/
def hasConflict (s : ManagerState) (test : KeyBinding) (exceptAction : Option String) : Bool :=
  match mapGet s.bindings (getBindingKey test) with
  | some existing => decide (exceptAction ≠ some existing.action)
  | none => false

/-- Whether a live binding deviates from its default
(the comparison of `saveOverridesToStorage`, all four combo fields). -/
def bindingDiffers (b d : KeyBinding) : Bool :=
  b.key != d.key || b.ctrl != d.ctrl || b.shift != d.shift || b.alt != d.alt

/-- The stored override entry for one binding: all four combo fields
(`overrides[action] = { key, ctrl, shift, alt }`). -/
def fullOverride (b : KeyBinding) : Override :=
  ⟨some b.key, some b.ctrl, some b.shift, some b.alt⟩

/-- The override record built by `saveOverridesToStorage`: one full
`{key, ctrl, shift, alt}` entry per action whose binding deviates from its
default, in action-index iteration order. -/
def computeOverrides (defs : List (String × KeyBinding)) : List (String × KeyBinding) → List (String × Override)
  | [] => []
  | (a, b) :: rest =>
    match mapGet defs a with
    | none => computeOverrides defs rest
    | some d =>
      if bindingDiffers b d then
        (a, fullOverride b) :: computeOverrides defs rest
      else computeOverrides defs rest

/-- `KeyBindingManager.saveOverridesToStorage`: replace the whole persisted
record with the diff of the action index against the defaults. -/
def saveOverridesToStorage (s : ManagerState) : ManagerState :=
  { s with storage := .record (computeOverrides s.defaultByAction s.actionToBinding) }

/-- Resolution of one persisted override on top of the action's current
binding (the `ov.x ?? current.x` spread of `loadOverridesFromStorage`). -/
def resolveOverride (ov : Override) (current : KeyBinding) : KeyBinding :=
  { current with
    key := ov.key.getD current.key,
    ctrl := ov.ctrl.getD current.ctrl,
    shift := ov.shift.getD current.shift,
    alt := ov.alt.getD current.alt }

/-- One step of the override loop of `loadOverridesFromStorage`: entries for
unknown actions are skipped, known ones are resolved and applied. -/
def applyOverrideEntry (s : ManagerState) (entry : String × Override) : ManagerState :=
  match mapGet s.actionToBinding entry.1 with
  | none => s
  | some current => applyBinding s entry.1 (resolveOverride entry.2 current)

/-- `KeyBindingManager.loadOverridesFromStorage`: an absent value or a parse
failure is ignored; a parsed record is folded over in entry order. -/
def loadOverridesFromStorage (s : ManagerState) : ManagerState :=
  match s.storage with
  | .absent => s
  | .unparsable => s
  | .record entries => entries.foldl applyOverrideEntry s

/-- The `update` argument of `KeyBindingManager.setBinding`
(`{ key: string; ctrl?: boolean; shift?: boolean; alt?: boolean }`,
optional flags read through `!!`). -/
structure KeyUpdate where
  key : String
  ctrl : Bool
  shift : Bool
  alt : Bool
deriving DecidableEq, Repr

/-- The candidate binding `setBinding` builds from the current binding and
the update: the update's key lowercased, its flags, and the current
binding's action and description. -/
def candidateOf (current : KeyBinding) (u : KeyUpdate) : KeyBinding :=
  { current with key := jsToLower u.key, ctrl := u.ctrl, shift := u.shift, alt := u.alt }

/-- `KeyBindingManager.setBinding`: fail (returning `false`) for an unknown
action or on conflict, leaving the state untouched; otherwise apply the
candidate and persist. -/
def setBinding (s : ManagerState) (action : String) (u : KeyUpdate) : Bool × ManagerState :=
  match mapGet s.actionToBinding action with
  | none => (false, s)
  | some current =>
    let next := candidateOf current u
    if hasConflict s next (some action) then (false, s)
    else (true, saveOverridesToStorage (applyBinding s action next))

/-- `KeyBindingManager.resetBinding`: apply the default binding (no conflict
check) and persist. -/
def resetBinding (s : ManagerState) (action : String) : ManagerState :=
  match mapGet s.defaultByAction action with
  | none => s
  | some d => saveOverridesToStorage (applyBinding s action d)

/-- `KeyBindingManager.resetAllBindings`: apply every default (no conflict
check), then persist once. -/
def resetAllBindings (s : ManagerState) : ManagerState :=
  saveOverridesToStorage (s.defaultByAction.foldl (fun t p => applyBinding t p.1 p.2) s)

/-- The constructor of `KeyBindingManager` over a given store content:
load the defaults, then the persisted overrides. -/
def mkManager (v : StoredValue) : ManagerState :=
  loadOverridesFromStorage (loadDefaultBindings (emptyState v))

/-- The manager as constructed on first launch (no persisted record). -/
def initialState : ManagerState := mkManager .absent

/-- `KeyBindingManager.getBindings`: one binding per action, in the stable
order of the action index. -/
def getBindings (s : ManagerState) : List KeyBinding := s.actionToBinding.map Prod.snd

/-- A key-down event as observed by the global listener: the key symbol, the
three modifier flags, and the focus target's `tagName` and
`contentEditable` attribute. -/
structure KeydownEvent where
  key : String
  ctrlKey : Bool
  shiftKey : Bool
  altKey : Bool
  targetTag : String
  contentEditable : String
deriving DecidableEq, Repr

/-- The text-editing-surface test of `setupGlobalListener`. -/
def isInputElement (e : KeydownEvent) : Bool :=
  e.targetTag == "INPUT" || e.targetTag == "TEXTAREA" || e.contentEditable == "true"

/-- The fixed allow-list of actions that stay active inside text-editing
surfaces (`globalShortcuts` in `setupGlobalListener`). -/
def globalShortcuts : List String :=
  ["OPEN_SPOTLIGHT_SEARCH", "OPEN_TAG_SEARCH", "OPEN_THEME_DROPDOWN", "OPEN_SETTINGS", "OPEN_EXPORT"]

/-- The combo encoding of an incoming event in `setupGlobalListener`:
same shape as `getBindingKey`, with the event's key lowercased. -/
def encodeEvent (e : KeydownEvent) : String :=
  let modifiers :=
    (if e.ctrlKey then ["ctrl"] else []) ++
    (if e.shiftKey then ["shift"] else []) ++
    (if e.altKey then ["alt"] else [])
  String.intercalate "+" modifiers ++ "-" ++ jsToLower e.key

/-- Outcome of the global key-down handler for one event: either the event
passes through untouched (no `preventDefault`, no action published), or
native behavior is suppressed and the action's listeners run. -/
inductive DispatchResult where
  | pass
  | execute (action : String)
deriving DecidableEq, Repr

/-- The per-event decision procedure of `setupGlobalListener`. -/
def handleKeydown (s : ManagerState) (isEnabled : Bool) (e : KeydownEvent) : DispatchResult :=
  if !isEnabled then .pass
  else
    match mapGet s.bindings (encodeEvent e) with
    | none => .pass
    | some binding =>
      if isInputElement e && !(globalShortcuts.contains binding.action) then
        -- the source returns early in both arms here: the UNDO/REDO branch
        -- only carries the comment that native undo/redo is left to run
        if binding.action == "UNDO" || binding.action == "REDO" then .pass else .pass
      else .execute binding.action

/-- The listener ids `executeAction` invokes for a dispatch outcome, given
the `on`-registered listener table. -/
def invokedListeners (ls : List (String × List String)) (r : DispatchResult) : List String :=
  match r with
  | .pass => []
  | .execute a => (mapGet ls a).getD []

/-- Whether the handler called `preventDefault`/`stopPropagation`. -/
def suppressesNative : DispatchResult → Bool
  | .pass => false
  | .execute _ => true

/-- `handleKeyCapture` of `SettingsModal.tsx`: while an action is being
captured (`editingAction` set), the next key-down is turned into a
`setBinding` update built from the raw event; on success the capture state
returns to idle, on failure it stays capturing (and an alert is shown). -/
def handleKeyCapture (editing : Option String) (s : ManagerState) (e : KeydownEvent) :
    Option String × ManagerState :=
  match editing with
  | none => (none, s)
  | some action =>
    let u : KeyUpdate := ⟨jsToLower e.key, e.ctrlKey, e.shiftKey, e.altKey⟩
    let r := setBinding s action u
    if r.1 then (none, r.2) else (editing, r.2)

/-- A mutation of the registry: `rebind` (`setBinding`), `reset`
(`resetBinding`) or `resetAll` (`resetAllBindings`). -/
inductive RegOp where
  | rebind (action : String) (u : KeyUpdate)
  | reset (action : String)
  | resetAll
deriving DecidableEq, Repr

/-- Run one registry mutation. -/
def stepRegOp (s : ManagerState) : RegOp → ManagerState
  | .rebind a u => (setBinding s a u).2
  | .reset a => resetBinding s a
  | .resetAll => resetAllBindings s

/-- Run a sequence of registry mutations. -/
def runRegOps (s : ManagerState) (ops : List RegOp) : ManagerState :=
  ops.foldl stepRegOp s

/-- Run a sequence of `setBinding` calls (rebinds only). -/
def runSetOps (s : ManagerState) (ops : List (String × KeyUpdate)) : ManagerState :=
  ops.foldl (fun t p => (setBinding t p.1 p.2).2) s

/-- Invariant I2 over the registry's bindings (one per action, held by the
action index): no two of them encode to the same combo. -/
def I2atb (s : ManagerState) : Prop :=
  ∀ p ∈ s.actionToBinding, ∀ q ∈ s.actionToBinding,
    getBindingKey p.2 = getBindingKey q.2 → p = q

instance (s : ManagerState) : Decidable (I2atb s) := by
  unfold I2atb; infer_instance

/-! ### Association-list facts about the JS `Map` model -/

theorem mapGet_mapSet_self {α : Type} (m : List (String × α)) (k : String) (v : α) :
    mapGet (mapSet m k v) k = some v := by
  induction m with
  | nil => simp [mapSet, mapGet]
  | cons p rest ih =>
    by_cases h : p.1 = k
    · simp [mapSet, h, mapGet]
    · simp [mapSet, h, mapGet, ih]

theorem mapGet_mapSet_ne {α : Type} (m : List (String × α)) {k k' : String} (v : α)
    (h : k' ≠ k) : mapGet (mapSet m k v) k' = mapGet m k' := by
  induction m with
  | nil => simp [mapSet, mapGet, Ne.symm h]
  | cons p rest ih =>
    obtain ⟨a, b⟩ := p
    by_cases hp : a = k
    · subst hp
      simp [mapSet, mapGet, Ne.symm h]
    · simp only [mapSet, hp, if_neg, not_false_iff, mapGet, ih]

theorem mapGet_mapDelete_self {α : Type} (m : List (String × α)) (k : String) :
    mapGet (mapDelete m k) k = none := by
  induction m with
  | nil => simp [mapDelete, mapGet]
  | cons p rest ih =>
    by_cases h : p.1 = k
    · simp [mapDelete, h, ih]
    · simp [mapDelete, h, mapGet, ih]

theorem mapGet_mapDelete_ne {α : Type} (m : List (String × α)) {k k' : String}
    (h : k' ≠ k) : mapGet (mapDelete m k) k' = mapGet m k' := by
  induction m with
  | nil => simp [mapDelete, mapGet]
  | cons p rest ih =>
    obtain ⟨a, b⟩ := p
    by_cases hp : a = k
    · subst hp
      simp [mapDelete, mapGet, Ne.symm h, ih]
    · simp only [mapDelete, hp, if_neg, not_false_iff, mapGet, ih]

theorem mem_of_mapGet_eq_some {α : Type} {m : List (String × α)} {k : String} {v : α}
    (h : mapGet m k = some v) : (k, v) ∈ m := by
  induction m with
  | nil => simp [mapGet] at h
  | cons p rest ih =>
    obtain ⟨a, b⟩ := p
    by_cases hp : a = k
    · subst hp
      have hb : b = v := by simpa [mapGet] using h
      subst hb
      exact List.mem_cons_self _ _
    · simp only [mapGet, hp, if_neg, not_false_iff] at h
      exact List.mem_cons_of_mem _ (ih h)

theorem mapGet_eq_none_iff {α : Type} (m : List (String × α)) (k : String) :
    mapGet m k = none ↔ k ∉ mapKeys m := by
  induction m with
  | nil => simp [mapGet, mapKeys]
  | cons p rest ih =>
    by_cases hp : p.1 = k
    · simp [mapGet, hp, mapKeys]
    · simp [mapGet, hp, mapKeys, ih, Ne.symm hp]

theorem mapGet_isSome_iff {α : Type} (m : List (String × α)) (k : String) :
    (mapGet m k).isSome ↔ k ∈ mapKeys m := by
  cases h : mapGet m k with
  | none =>
    simp only [Option.isSome_none, Bool.false_eq_true, false_iff]
    exact (mapGet_eq_none_iff m k).1 h
  | some v =>
    simp only [Option.isSome_some, true_iff]
    have := List.mem_map_of_mem Prod.fst (mem_of_mapGet_eq_some h)
    simpa [mapKeys] using this

theorem mapGet_eq_some_of_mem {α : Type} {m : List (String × α)} {k : String} {v : α}
    (hnd : (mapKeys m).Nodup) (h : (k, v) ∈ m) : mapGet m k = some v := by
  induction m with
  | nil => simp at h
  | cons p rest ih =>
    rcases List.mem_cons.1 h with h | h
    · subst h
      simp [mapGet]
    · have hk : k ∈ mapKeys rest := by
        simpa [mapKeys] using List.mem_map_of_mem Prod.fst h
      have hp : p.1 ≠ k := by
        intro he
        exact (List.nodup_cons.1 (by simpa [mapKeys] using hnd)).1 (he ▸ hk)
      simp only [mapGet, hp, if_neg, not_false_iff]
      exact ih (List.nodup_cons.1 (by simpa [mapKeys] using hnd)).2 h

theorem mem_mapSet_weak {α : Type} {m : List (String × α)} {k : String} {v : α}
    {p : String × α} (h : p ∈ mapSet m k v) : p = (k, v) ∨ p ∈ m := by
  induction m with
  | nil => simpa [mapSet] using h
  | cons q rest ih =>
    by_cases hq : q.1 = k
    · rcases List.mem_cons.1 (by simpa [mapSet, hq] using h) with h' | h'
      · exact Or.inl h'
      · exact Or.inr (List.mem_cons_of_mem _ h')
    · rcases List.mem_cons.1 (by simpa [mapSet, hq] using h) with h' | h'
      · exact Or.inr (h' ▸ List.mem_cons_self _ _)
      · rcases ih h' with h'' | h''
        · exact Or.inl h''
        · exact Or.inr (List.mem_cons_of_mem _ h'')

theorem mem_mapDelete {α : Type} {m : List (String × α)} {k : String} {p : String × α} :
    p ∈ mapDelete m k ↔ p ∈ m ∧ p.1 ≠ k := by
  induction m with
  | nil => simp [mapDelete]
  | cons q rest ih =>
    by_cases hq : q.1 = k
    · constructor
      · intro h
        rcases ih.1 (by simpa [mapDelete, hq] using h) with ⟨h1, h2⟩
        exact ⟨List.mem_cons_of_mem _ h1, h2⟩
      · rintro ⟨h1, h2⟩
        rcases List.mem_cons.1 h1 with h' | h'
        · exact absurd (h' ▸ hq) h2
        · simpa [mapDelete, hq] using ih.2 ⟨h', h2⟩
    · constructor
      · intro h
        rcases List.mem_cons.1 (by simpa [mapDelete, hq] using h) with h' | h'
        · exact ⟨h' ▸ List.mem_cons_self _ _, h' ▸ hq⟩
        · rcases ih.1 h' with ⟨h1, h2⟩
          exact ⟨List.mem_cons_of_mem _ h1, h2⟩
      · rintro ⟨h1, h2⟩
        rcases List.mem_cons.1 h1 with h' | h'
        · subst h'
          simp [mapDelete, hq]
        · simpa [mapDelete, hq] using List.mem_cons_of_mem _ (ih.2 ⟨h', h2⟩)

theorem mem_mapSet {α : Type} {m : List (String × α)} {k : String} {v : α}
    {p : String × α} (hnd : (mapKeys m).Nodup) :
    p ∈ mapSet m k v ↔ p = (k, v) ∨ (p ∈ m ∧ p.1 ≠ k) := by
  induction m with
  | nil => simp [mapSet]
  | cons q rest ih =>
    rw [show mapKeys (q :: rest) = q.1 :: mapKeys rest from rfl] at hnd
    rcases List.nodup_cons.1 hnd with ⟨hnm, hnd'⟩
    by_cases hq : q.1 = k
    · subst hq
      constructor
      · intro h
        rcases List.mem_cons.1 (by simpa [mapSet] using h) with h' | h'
        · exact Or.inl h'
        · refine Or.inr ⟨List.mem_cons_of_mem _ h', ?_⟩
          intro he
          exact hnm (by simpa [mapKeys, ← he] using List.mem_map_of_mem Prod.fst h')
      · rintro (h | ⟨h1, h2⟩)
        · simpa [mapSet] using Or.inl h
        · rcases List.mem_cons.1 h1 with h' | h'
          · exact absurd (congrArg Prod.fst h') h2
          · simpa [mapSet] using Or.inr h'
    · constructor
      · intro h
        rcases List.mem_cons.1 (by simpa [mapSet, hq] using h) with h' | h'
        · exact Or.inr ⟨h' ▸ List.mem_cons_self _ _, h' ▸ hq⟩
        · rcases (ih hnd').1 h' with h'' | h''
          · exact Or.inl h''
          · exact Or.inr ⟨List.mem_cons_of_mem _ h''.1, h''.2⟩
      · rintro (h | ⟨h1, h2⟩)
        · simpa [mapSet, hq] using Or.inr ((ih hnd').2 (Or.inl h))
        · rcases List.mem_cons.1 h1 with h' | h'
          · subst h'
            simp [mapSet, hq]
          · simpa [mapSet, hq] using
              List.mem_cons_of_mem _ ((ih hnd').2 (Or.inr ⟨h', h2⟩))

theorem mapKeys_mapSet_of_mem {α : Type} {m : List (String × α)} {k : String} (v : α)
    (h : k ∈ mapKeys m) : mapKeys (mapSet m k v) = mapKeys m := by
  induction m with
  | nil => simp [mapKeys] at h
  | cons q rest ih =>
    obtain ⟨a, b⟩ := q
    by_cases hp : a = k
    · subst hp
      simp [mapSet, mapKeys]
    · have hk : k ∈ mapKeys rest := by
        rcases List.mem_cons.1 (show k ∈ a :: mapKeys rest from h) with h' | h'
        · exact absurd h'.symm hp
        · exact h'
      calc mapKeys (mapSet ((a, b) :: rest) k v)
          = a :: mapKeys (mapSet rest k v) := by simp [mapSet, hp, mapKeys]
        _ = a :: mapKeys rest := by rw [ih hk]
        _ = mapKeys ((a, b) :: rest) := rfl

theorem nodup_mapKeys_mapSet {α : Type} {m : List (String × α)} (k : String) (v : α)
    (hnd : (mapKeys m).Nodup) : (mapKeys (mapSet m k v)).Nodup := by
  induction m with
  | nil => simp [mapSet, mapKeys]
  | cons p rest ih =>
    rw [show mapKeys (p :: rest) = p.1 :: mapKeys rest from rfl] at hnd
    rcases List.nodup_cons.1 hnd with ⟨hnm, hnd'⟩
    by_cases hp : p.1 = k
    · subst hp
      simpa [mapSet, mapKeys] using hnd
    · by_cases hk : k ∈ mapKeys rest
      · rw [show mapSet (p :: rest) k v = p :: mapSet rest k v by simp [mapSet, hp]]
        rw [show mapKeys (p :: mapSet rest k v) = p.1 :: mapKeys (mapSet rest k v) from rfl]
        rw [mapKeys_mapSet_of_mem v hk]
        exact hnd
      · rw [show mapSet (p :: rest) k v = p :: mapSet rest k v by simp [mapSet, hp]]
        rw [show mapKeys (p :: mapSet rest k v) = p.1 :: mapKeys (mapSet rest k v) from rfl]
        refine List.nodup_cons.2 ⟨?_, ih hnd'⟩
        intro hmem
        rcases List.mem_map.1 hmem with ⟨q, hq, hq1⟩
        rcases mem_mapSet_weak hq with h' | h'
        · exact hp (by rw [← hq1, h'])
        · exact hnm (by simpa [mapKeys, ← hq1] using List.mem_map_of_mem Prod.fst h')

theorem nodup_mapKeys_mapDelete {α : Type} {m : List (String × α)} (k : String)
    (hnd : (mapKeys m).Nodup) : (mapKeys (mapDelete m k)).Nodup := by
  induction m with
  | nil => simp [mapDelete, mapKeys]
  | cons p rest ih =>
    rw [show mapKeys (p :: rest) = p.1 :: mapKeys rest from rfl] at hnd
    rcases List.nodup_cons.1 hnd with ⟨hnm, hnd'⟩
    by_cases hp : p.1 = k
    · simp only [mapDelete, hp, if_pos]
      exact ih hnd'
    · simp only [mapDelete, hp, if_neg, not_false_iff]
      rw [show mapKeys (p :: mapDelete rest k) = p.1 :: mapKeys (mapDelete rest k) from rfl]
      refine List.nodup_cons.2 ⟨?_, ih hnd'⟩
      intro hmem
      rcases List.mem_map.1 hmem with ⟨q, hq, hq1⟩
      exact hnm (by simpa [mapKeys, ← hq1] using
        List.mem_map_of_mem Prod.fst ((mem_mapDelete.1 hq).1))

/-! ### Unfolding lemmas for the manager operations -/

theorem applyBinding_actionToBinding (s : ManagerState) (a : String) (b : KeyBinding) :
    (applyBinding s a b).actionToBinding = mapSet s.actionToBinding a b := rfl

theorem applyBinding_defaultByAction (s : ManagerState) (a : String) (b : KeyBinding) :
    (applyBinding s a b).defaultByAction = s.defaultByAction := rfl

theorem applyBinding_bindings_of_some {s : ManagerState} {a : String} {cur : KeyBinding}
    (h : mapGet s.actionToBinding a = some cur) (b : KeyBinding) :
    (applyBinding s a b).bindings =
      mapSet (mapDelete s.bindings (getBindingKey cur)) (getBindingKey b) b := by
  unfold applyBinding
  rw [h]

theorem saveOverridesToStorage_bindings (s : ManagerState) :
    (saveOverridesToStorage s).bindings = s.bindings := rfl

theorem saveOverridesToStorage_actionToBinding (s : ManagerState) :
    (saveOverridesToStorage s).actionToBinding = s.actionToBinding := rfl

theorem saveOverridesToStorage_defaultByAction (s : ManagerState) :
    (saveOverridesToStorage s).defaultByAction = s.defaultByAction := rfl

theorem setBinding_of_unknown {s : ManagerState} {a : String} (u : KeyUpdate)
    (h : mapGet s.actionToBinding a = none) : setBinding s a u = (false, s) := by
  unfold setBinding
  rw [h]

theorem setBinding_of_conflict {s : ManagerState} {a : String} {cur : KeyBinding} (u : KeyUpdate)
    (h : mapGet s.actionToBinding a = some cur)
    (hc : hasConflict s (candidateOf cur u) (some a) = true) :
    setBinding s a u = (false, s) := by
  unfold setBinding
  rw [h]
  simp [hc]

theorem setBinding_of_ok {s : ManagerState} {a : String} {cur : KeyBinding} (u : KeyUpdate)
    (h : mapGet s.actionToBinding a = some cur)
    (hc : hasConflict s (candidateOf cur u) (some a) = false) :
    setBinding s a u =
      (true, saveOverridesToStorage (applyBinding s a (candidateOf cur u))) := by
  unfold setBinding
  rw [h]
  simp [hc]

theorem no_owner_of_not_hasConflict {s : ManagerState} {t : KeyBinding} {a : String}
    (hc : hasConflict s t (some a) = false) :
    ∀ ex, mapGet s.bindings (getBindingKey t) = some ex → ex.action = a := by
  intro ex hex
  unfold hasConflict at hc
  rw [hex] at hc
  exact (by simpa using (of_decide_eq_false hc) : a = ex.action).symm

/-! ### Invariants of reachable manager states -/

/-- The stable part of every reachable state: the default table is the
startup one, the action index carries exactly the default actions in their
stable order, and every live binding names its own action and keeps its
default description. -/
def Shape (s : ManagerState) : Prop :=
  s.defaultByAction = initialState.defaultByAction ∧
  mapKeys s.actionToBinding = mapKeys initialState.actionToBinding ∧
  (mapKeys s.actionToBinding).Nodup ∧
  ∀ p ∈ s.actionToBinding, p.2.action = p.1 ∧
    ((mapGet s.defaultByAction p.1).all fun d => p.2.description == d.description) = true

instance (s : ManagerState) : Decidable (Shape s) := by
  unfold Shape; infer_instance

/-- The two indices of the registry agree: every action-index binding is
found in the combo index under its encoding, and every combo-index entry
is keyed by its binding's encoding and registered in the action index. -/
def Reg (s : ManagerState) : Prop :=
  (mapKeys s.bindings).Nodup ∧
  (∀ p ∈ s.actionToBinding, mapGet s.bindings (getBindingKey p.2) = some p.2) ∧
  (∀ q ∈ s.bindings, q.1 = getBindingKey q.2 ∧
    mapGet s.actionToBinding q.2.action = some q.2)

instance (s : ManagerState) : Decidable (Reg s) := by
  unfold Reg; infer_instance

theorem shape_initialState : Shape initialState := by decide

theorem reg_initialState : Reg initialState := by decide

theorem shape_saveOverridesToStorage {s : ManagerState} (h : Shape s) :
    Shape (saveOverridesToStorage s) := h

theorem reg_saveOverridesToStorage {s : ManagerState} (h : Reg s) :
    Reg (saveOverridesToStorage s) := h

theorem shape_applyBinding {s : ManagerState} {a : String} {cur : KeyBinding}
    (hS : Shape s) (hg : mapGet s.actionToBinding a = some cur) {b : KeyBinding}
    (hact : b.action = cur.action) (hdesc : b.description = cur.description) :
    Shape (applyBinding s a b) := by
  obtain ⟨hdef, hkeys, hnd, hmem⟩ := hS
  have hka : a ∈ mapKeys s.actionToBinding := (mapGet_isSome_iff _ _).1 (by rw [hg]; rfl)
  have hcur := hmem (a, cur) (mem_of_mapGet_eq_some hg)
  refine ⟨?_, ?_, ?_, ?_⟩
  · rw [applyBinding_defaultByAction]
    exact hdef
  · rw [applyBinding_actionToBinding, mapKeys_mapSet_of_mem _ hka]
    exact hkeys
  · rw [applyBinding_actionToBinding, mapKeys_mapSet_of_mem _ hka]
    exact hnd
  · intro p hp
    rw [applyBinding_actionToBinding] at hp
    rw [applyBinding_defaultByAction]
    rcases (mem_mapSet hnd).1 hp with hpe | ⟨hpm, _⟩
    · subst hpe
      constructor
      · simpa [hact] using hcur.1
      · simpa [hdesc] using hcur.2
    · exact hmem p hpm

theorem shape_setBinding (s : ManagerState) (a : String) (u : KeyUpdate) (hS : Shape s) :
    Shape (setBinding s a u).2 := by
  cases hg : mapGet s.actionToBinding a with
  | none =>
    rw [setBinding_of_unknown u hg]
    exact hS
  | some cur =>
    cases hc : hasConflict s (candidateOf cur u) (some a) with
    | true =>
      rw [setBinding_of_conflict u hg hc]
      exact hS
    | false =>
      rw [setBinding_of_ok u hg hc]
      exact shape_saveOverridesToStorage (shape_applyBinding hS hg rfl rfl)

theorem reg_applyBinding_of_ok {s : ManagerState} {a : String} {cur : KeyBinding} {u : KeyUpdate}
    (hS : Shape s) (hR : Reg s) (hg : mapGet s.actionToBinding a = some cur)
    (hc : hasConflict s (candidateOf cur u) (some a) = false) :
    Reg (applyBinding s a (candidateOf cur u)) := by
  obtain ⟨hdef, hkeys, hndA, hmemS⟩ := hS
  obtain ⟨hndB, hlink, hback⟩ := hR
  have hcura : cur.action = a := by simpa using (hmemS (a, cur) (mem_of_mapGet_eq_some hg)).1
  have hnexta : (candidateOf cur u).action = a := hcura
  have hnoc := no_owner_of_not_hasConflict hc
  have hbnd := applyBinding_bindings_of_some hg (candidateOf cur u)
  have hatb := applyBinding_actionToBinding s a (candidateOf cur u)
  have hndD : (mapKeys (mapDelete s.bindings (getBindingKey cur))).Nodup :=
    nodup_mapKeys_mapDelete _ hndB
  refine ⟨?_, ?_, ?_⟩
  · rw [hbnd]
    exact nodup_mapKeys_mapSet _ _ hndD
  · intro p hp
    rw [hatb] at hp
    rw [hbnd]
    rcases (mem_mapSet hndA).1 hp with hpe | ⟨hpm, hpa⟩
    · subst hpe
      exact mapGet_mapSet_self _ _ _
    · have hl := hlink p hpm
      have hact : p.2.action = p.1 := (hmemS p hpm).1
      have hne1 : getBindingKey p.2 ≠ getBindingKey (candidateOf cur u) := by
        intro he
        have hpa2 : p.2.action = a := hnoc p.2 (by rw [← he]; exact hl)
        exact hpa (by rw [← hact, hpa2])
      have hne2 : getBindingKey p.2 ≠ getBindingKey cur := by
        intro he
        have h2 : mapGet s.bindings (getBindingKey cur) = some p.2 := by
          rw [← he]
          exact hl
        have h3 : mapGet s.bindings (getBindingKey cur) = some cur :=
          hlink (a, cur) (mem_of_mapGet_eq_some hg)
        rw [h2] at h3
        have hpc : p.2 = cur := Option.some.inj h3
        exact hpa (by rw [← hact, hpc, hcura])
      rw [mapGet_mapSet_ne _ _ hne1, mapGet_mapDelete_ne _ hne2]
      exact hl
  · intro q hq
    rw [hbnd] at hq
    rw [hatb]
    rcases (mem_mapSet hndD).1 hq with hqe | ⟨hqm, hqne⟩
    · subst hqe
      refine ⟨rfl, ?_⟩
      rw [show ((getBindingKey (candidateOf cur u), candidateOf cur u)).2 = candidateOf cur u
        from rfl, hnexta]
      exact mapGet_mapSet_self _ _ _
    · rcases mem_mapDelete.1 hqm with ⟨hqs, hqc⟩
      have hb := hback q hqs
      refine ⟨hb.1, ?_⟩
      have hqa : q.2.action ≠ a := by
        intro he
        have h2 : mapGet s.actionToBinding a = some q.2 := by
          rw [← he]
          exact hb.2
        rw [h2] at hg
        have hq2 : q.2 = cur := Option.some.inj hg
        exact hqc (by rw [hb.1, hq2])
      rw [mapGet_mapSet_ne _ _ hqa]
      exact hb.2

theorem reg_setBinding (s : ManagerState) (a : String) (u : KeyUpdate)
    (hS : Shape s) (hR : Reg s) : Reg (setBinding s a u).2 := by
  cases hg : mapGet s.actionToBinding a with
  | none =>
    rw [setBinding_of_unknown u hg]
    exact hR
  | some cur =>
    cases hc : hasConflict s (candidateOf cur u) (some a) with
    | true =>
      rw [setBinding_of_conflict u hg hc]
      exact hR
    | false =>
      rw [setBinding_of_ok u hg hc]
      exact reg_saveOverridesToStorage (reg_applyBinding_of_ok hS hR hg hc)

theorem I2atb_of_invariants {s : ManagerState} (hS : Shape s) (hR : Reg s) : I2atb s := by
  intro p hp q hq he
  have h1 := hR.2.1 p hp
  have h2 := hR.2.1 q hq
  rw [he] at h1
  rw [h1] at h2
  have ha1 := (hS.2.2.2 p hp).1
  have ha2 := (hS.2.2.2 q hq).1
  obtain ⟨p1, p2⟩ := p
  obtain ⟨q1, q2⟩ := q
  have hv : p2 = q2 := Option.some.inj h2
  subst hv
  simp only at ha1 ha2
  rw [← ha1, ← ha2]

theorem shapeReg_runSetOps : ∀ (ops : List (String × KeyUpdate)) (s : ManagerState),
    Shape s → Reg s → Shape (runSetOps s ops) ∧ Reg (runSetOps s ops) := by
  intro ops
  induction ops with
  | nil => exact fun s hS hR => ⟨hS, hR⟩
  | cons op rest ih =>
    intro s hS hR
    exact ih (setBinding s op.1 op.2).2 (shape_setBinding s op.1 op.2 hS)
      (reg_setBinding s op.1 op.2 hS hR)

/-! ### The load fold of `loadOverridesFromStorage`, entry by entry -/

theorem applyOverrideEntry_atb_self (t : ManagerState) (e : String × Override) :
    mapGet (applyOverrideEntry t e).actionToBinding e.1 =
      (mapGet t.actionToBinding e.1).map (resolveOverride e.2) := by
  unfold applyOverrideEntry
  cases hg : mapGet t.actionToBinding e.1 with
  | none => simp [hg]
  | some cur =>
    rw [applyBinding_actionToBinding, mapGet_mapSet_self]
    rfl

theorem applyOverrideEntry_atb_ne (t : ManagerState) (e : String × Override) {x : String}
    (hx : x ≠ e.1) :
    mapGet (applyOverrideEntry t e).actionToBinding x = mapGet t.actionToBinding x := by
  unfold applyOverrideEntry
  cases hg : mapGet t.actionToBinding e.1 with
  | none => rfl
  | some cur =>
    rw [applyBinding_actionToBinding, mapGet_mapSet_ne _ _ hx]

theorem applyOverrideEntry_keys (t : ManagerState) (e : String × Override) :
    mapKeys (applyOverrideEntry t e).actionToBinding = mapKeys t.actionToBinding := by
  unfold applyOverrideEntry
  cases hg : mapGet t.actionToBinding e.1 with
  | none => rfl
  | some cur =>
    rw [applyBinding_actionToBinding]
    exact mapKeys_mapSet_of_mem _ ((mapGet_isSome_iff _ _).1 (by rw [hg]; rfl))

theorem foldl_applyOverrideEntry_keys (os : List (String × Override)) :
    ∀ t : ManagerState,
      mapKeys (os.foldl applyOverrideEntry t).actionToBinding = mapKeys t.actionToBinding := by
  induction os with
  | nil => intro t; rfl
  | cons e rest ih =>
    intro t
    rw [List.foldl_cons, ih, applyOverrideEntry_keys]

theorem foldl_applyOverrideEntry_get_notin (os : List (String × Override)) :
    ∀ (t : ManagerState) (a : String), a ∉ mapKeys os →
      mapGet (os.foldl applyOverrideEntry t).actionToBinding a = mapGet t.actionToBinding a := by
  induction os with
  | nil => intro t a _; rfl
  | cons e rest ih =>
    intro t a ha
    have ha1 : a ≠ e.1 := by
      intro he
      exact ha (by rw [he]; exact List.mem_cons_self _ _)
    have ha2 : a ∉ mapKeys rest := by
      intro he
      exact ha (List.mem_cons_of_mem _ he)
    rw [List.foldl_cons, ih _ a ha2, applyOverrideEntry_atb_ne _ _ ha1]

theorem foldl_applyOverrideEntry_get :
    ∀ os : List (String × Override), (mapKeys os).Nodup →
      ∀ (t : ManagerState) (a : String),
        mapGet (os.foldl applyOverrideEntry t).actionToBinding a =
          match mapGet os a with
          | some ov => (mapGet t.actionToBinding a).map (resolveOverride ov)
          | none => mapGet t.actionToBinding a := by
  intro os
  induction os with
  | nil => intro _ t a; rfl
  | cons e rest ih =>
    intro hnd t a
    rcases List.nodup_cons.1 (show (e.1 :: mapKeys rest).Nodup from hnd) with ⟨hnm, hnd'⟩
    by_cases ha : a = e.1
    · have hm : mapGet (e :: rest) a = some e.2 := by
        show (if e.1 = a then some e.2 else mapGet rest a) = some e.2
        rw [if_pos ha.symm]
      have hnotin : a ∉ mapKeys rest := by
        rw [ha]
        exact hnm
      rw [List.foldl_cons, foldl_applyOverrideEntry_get_notin rest _ a hnotin, hm, ha]
      exact applyOverrideEntry_atb_self t e
    · have hm : mapGet (e :: rest) a = mapGet rest a := by
        show (if e.1 = a then some e.2 else mapGet rest a) = mapGet rest a
        rw [if_neg (Ne.symm ha)]
      rw [List.foldl_cons, ih hnd' (applyOverrideEntry t e) a, hm,
        applyOverrideEntry_atb_ne t e ha]

/-! ### The saved override record, entry by entry -/

theorem mapKeys_computeOverrides_sublist (defs : List (String × KeyBinding)) :
    ∀ atb : List (String × KeyBinding),
      (mapKeys (computeOverrides defs atb)).Sublist (mapKeys atb) := by
  intro atb
  induction atb with
  | nil => simp [computeOverrides, mapKeys]
  | cons p rest ih =>
    obtain ⟨a, b⟩ := p
    show (mapKeys (computeOverrides defs ((a, b) :: rest))).Sublist (a :: mapKeys rest)
    cases hd : mapGet defs a with
    | none =>
      rw [show computeOverrides defs ((a, b) :: rest) = computeOverrides defs rest by
        simp [computeOverrides, hd]]
      exact ih.cons a
    | some d =>
      by_cases hdiff : bindingDiffers b d = true
      · rw [show computeOverrides defs ((a, b) :: rest)
            = (a, fullOverride b) :: computeOverrides defs rest by
          simp [computeOverrides, hd, hdiff]]
        exact ih.cons₂ a
      · rw [show computeOverrides defs ((a, b) :: rest) = computeOverrides defs rest by
          simp [computeOverrides, hd, hdiff]]
        exact ih.cons a

theorem mapGet_computeOverrides (defs : List (String × KeyBinding)) :
    ∀ atb : List (String × KeyBinding), (mapKeys atb).Nodup → ∀ a : String,
      mapGet (computeOverrides defs atb) a =
        match mapGet atb a, mapGet defs a with
        | some b, some d =>
          if bindingDiffers b d then some (fullOverride b) else none
        | _, _ => none := by
  intro atb
  induction atb with
  | nil => intro _ a; rfl
  | cons p rest ih =>
    intro hnd a
    obtain ⟨a0, b0⟩ := p
    rcases List.nodup_cons.1 (show (a0 :: mapKeys rest).Nodup from hnd) with ⟨hnm, hnd'⟩
    by_cases ha : a0 = a
    · subst ha
      have hget : mapGet ((a0, b0) :: rest) a0 = some b0 := by simp [mapGet]
      have hnone : mapGet (computeOverrides defs rest) a0 = none :=
        (mapGet_eq_none_iff _ _).2
          (fun hc => hnm ((mapKeys_computeOverrides_sublist defs rest).mem hc))
      cases hd : mapGet defs a0 with
      | none =>
        rw [show computeOverrides defs ((a0, b0) :: rest) = computeOverrides defs rest by
          simp [computeOverrides, hd], hnone, hget]
      | some d =>
        by_cases hdiff : bindingDiffers b0 d = true
        · rw [show computeOverrides defs ((a0, b0) :: rest)
              = (a0, fullOverride b0) :: computeOverrides defs rest by
            simp [computeOverrides, hd, hdiff], hget]
          simp [mapGet, hdiff]
        · rw [show computeOverrides defs ((a0, b0) :: rest) = computeOverrides defs rest by
            simp [computeOverrides, hd, hdiff], hnone, hget]
          simp [hdiff]
    · have hget : mapGet ((a0, b0) :: rest) a = mapGet rest a := by simp [mapGet, ha]
      cases hd : mapGet defs a0 with
      | none =>
        rw [show computeOverrides defs ((a0, b0) :: rest) = computeOverrides defs rest by
          simp [computeOverrides, hd], ih hnd' a, hget]
      | some d =>
        by_cases hdiff : bindingDiffers b0 d = true
        · rw [show computeOverrides defs ((a0, b0) :: rest)
              = (a0, fullOverride b0) :: computeOverrides defs rest by
            simp [computeOverrides, hd, hdiff]]
          rw [show mapGet ((a0, fullOverride b0) :: computeOverrides defs rest) a
              = mapGet (computeOverrides defs rest) a by simp [mapGet, ha]]
          rw [ih hnd' a, hget]
        · rw [show computeOverrides defs ((a0, b0) :: rest) = computeOverrides defs rest by
            simp [computeOverrides, hd, hdiff], ih hnd' a, hget]

/-! ### Extensionality for the JS map model -/

theorem mapExt {α : Type} :
    ∀ m₁ m₂ : List (String × α), mapKeys m₁ = mapKeys m₂ → (mapKeys m₁).Nodup →
      (∀ k, mapGet m₁ k = mapGet m₂ k) → m₁ = m₂ := by
  intro m₁
  induction m₁ with
  | nil =>
    intro m₂ hk _ _
    cases m₂ with
    | nil => rfl
    | cons q r₂ => simp [mapKeys] at hk
  | cons p r ih =>
    intro m₂ hk hnd hg
    cases m₂ with
    | nil => simp [mapKeys] at hk
    | cons q r₂ =>
      obtain ⟨a, b⟩ := p
      obtain ⟨a₂, b₂⟩ := q
      have hk' : a :: mapKeys r = a₂ :: mapKeys r₂ := hk
      injection hk' with ha hkr
      subst ha
      have hb : b = b₂ := by
        have hgb := hg a
        simpa [mapGet] using hgb
      subst hb
      have hnd2 := List.nodup_cons.1 (show (a :: mapKeys r).Nodup from hnd)
      have hnm₂ : a ∉ mapKeys r₂ := by
        rw [← hkr]
        exact hnd2.1
      have hgr : ∀ k, mapGet r k = mapGet r₂ k := by
        intro k
        by_cases hka : a = k
        · subst hka
          rw [(mapGet_eq_none_iff r a).2 hnd2.1, (mapGet_eq_none_iff r₂ a).2 hnm₂]
        · have hgk := hg k
          simpa [mapGet, hka] using hgk
      rw [ih r₂ hkr hnd2.2 hgr]

/-! ### The persistence round trip -/

theorem init_defaults_action : ∀ q ∈ initialState.defaultByAction, q.2.action = q.1 := by decide

theorem roundtrip_atb {s : ManagerState} (hS : Shape s) :
    (mkManager (saveOverridesToStorage s).storage).actionToBinding = s.actionToBinding := by
  obtain ⟨hdef, hkeys, hnd, hmem⟩ := hS
  set os := computeOverrides s.defaultByAction s.actionToBinding with hos
  set base := loadDefaultBindings (emptyState (StoredValue.record os)) with hbase
  have hmk : mkManager (saveOverridesToStorage s).storage = os.foldl applyOverrideEntry base := rfl
  have hbatb : base.actionToBinding = initialState.actionToBinding := rfl
  have hos_nodup : (mapKeys os).Nodup := by
    have hsub := mapKeys_computeOverrides_sublist s.defaultByAction s.actionToBinding
    rw [← hos] at hsub
    exact hsub.nodup hnd
  apply mapExt
  · rw [hmk, foldl_applyOverrideEntry_keys, hbatb, ← hkeys]
  · rw [hmk, foldl_applyOverrideEntry_keys, hbatb, ← hkeys]
    exact hnd
  · intro k
    have hov := mapGet_computeOverrides s.defaultByAction s.actionToBinding hnd k
    rw [← hos] at hov
    rw [hmk, foldl_applyOverrideEntry_get os hos_nodup base k, hbatb]
    cases hga : mapGet s.actionToBinding k with
    | none =>
      rw [hga] at hov
      have hov2 : mapGet os k = none := by
        rw [hov]
      rw [hov2]
      show mapGet initialState.actionToBinding k = none
      refine (mapGet_eq_none_iff _ _).2 ?_
      rw [← hkeys]
      exact (mapGet_eq_none_iff _ _).1 hga
    | some b =>
      rw [hga] at hov
      have hkin : k ∈ mapKeys initialState.actionToBinding := by
        rw [← hkeys]
        exact (mapGet_isSome_iff _ _).1 (by rw [hga]; rfl)
      have hdef_eq : mapGet s.defaultByAction k = mapGet initialState.actionToBinding k := by
        rw [hdef]
        exact rfl
      cases hgd : mapGet s.defaultByAction k with
      | none =>
        rw [hgd] at hdef_eq
        exact absurd hkin ((mapGet_eq_none_iff _ _).1 hdef_eq.symm)
      | some d =>
        rw [hgd] at hov hdef_eq
        have hdm : mapGet initialState.defaultByAction k = some d := by
          rw [← hdef]
          exact hgd
        have hdact : d.action = k := by
          simpa using init_defaults_action (k, d) (mem_of_mapGet_eq_some hdm)
        have hbmem := hmem (k, b) (mem_of_mapGet_eq_some hga)
        have hbact : b.action = k := by simpa using hbmem.1
        have hdesc : b.description = d.description := by
          have h2 := hbmem.2
          rw [show ((k, b) : String × KeyBinding).1 = k from rfl, hgd] at h2
          simpa using h2
        by_cases hdiff : bindingDiffers b d = true
        · have hov2 : mapGet os k = some (fullOverride b) := by
            rw [hov]
            show (if bindingDiffers b d then some (fullOverride b) else none)
              = some (fullOverride b)
            rw [if_pos hdiff]
          rw [hov2]
          show (mapGet initialState.actionToBinding k).map (resolveOverride (fullOverride b))
            = some b
          rw [← hdef_eq]
          show some (resolveOverride (fullOverride b) d) = some b
          have hrb : resolveOverride (fullOverride b) d = b := by
            obtain ⟨bk, bc, bs, bal, bact, bdesc⟩ := b
            obtain ⟨dk, dc, ds, dal, dact, ddesc⟩ := d
            simp only [resolveOverride, fullOverride, Option.getD] at *
            simp_all
          rw [hrb]
        · have hov2 : mapGet os k = none := by
            rw [hov]
            show (if bindingDiffers b d then some (fullOverride b) else none) = none
            rw [if_neg hdiff]
          rw [hov2]
          show mapGet initialState.actionToBinding k = some b
          rw [← hdef_eq]
          have hfields : ((b.key = d.key ∧ b.ctrl = d.ctrl) ∧ b.shift = d.shift) ∧
              b.alt = d.alt := by
            simpa [bindingDiffers] using hdiff
          obtain ⟨⟨⟨hf1, hf2⟩, hf3⟩, hf4⟩ := hfields
          have hbd : d = b := by
            obtain ⟨bk, bc, bs, bal, bact, bdesc⟩ := b
            obtain ⟨dk, dc, ds, dal, dact, ddesc⟩ := d
            simp only at *
            simp_all
          rw [hbd]

/-! ### Load skips unknown actions -/

theorem applyOverrideEntry_of_unknown {t : ManagerState} {e : String × Override}
    (h : mapGet t.actionToBinding e.1 = none) : applyOverrideEntry t e = t := by
  unfold applyOverrideEntry
  rw [h]

theorem applyOverrideEntry_presence (t : ManagerState) (e : String × Override) (a : String) :
    (mapGet (applyOverrideEntry t e).actionToBinding a).isSome
      = (mapGet t.actionToBinding a).isSome := by
  by_cases ha : a = e.1
  · rw [ha, applyOverrideEntry_atb_self]
    cases mapGet t.actionToBinding e.1 <;> rfl
  · rw [applyOverrideEntry_atb_ne t e ha]

theorem loadFold_filter_known :
    ∀ (entries : List (String × Override)) (t : ManagerState),
      (∀ a, (mapGet t.actionToBinding a).isSome
        = (mapGet initialState.actionToBinding a).isSome) →
      entries.foldl applyOverrideEntry t =
        (entries.filter fun p => (mapGet initialState.actionToBinding p.1).isSome).foldl
          applyOverrideEntry t := by
  intro entries
  induction entries with
  | nil => intro t _; rfl
  | cons e rest ih =>
    intro t hpres
    by_cases hk : (mapGet initialState.actionToBinding e.1).isSome = true
    · rw [List.foldl_cons,
        show (e :: rest).filter (fun p => (mapGet initialState.actionToBinding p.1).isSome)
          = e :: rest.filter (fun p => (mapGet initialState.actionToBinding p.1).isSome) by
          simp [List.filter_cons, hk],
        List.foldl_cons]
      refine ih (applyOverrideEntry t e) ?_
      intro a
      rw [applyOverrideEntry_presence, hpres a]
    · have ht : mapGet t.actionToBinding e.1 = none := by
        cases h2 : mapGet t.actionToBinding e.1 with
        | none => rfl
        | some c =>
          exact absurd (by rw [← hpres e.1, h2]; rfl) hk
      rw [List.foldl_cons, applyOverrideEntry_of_unknown ht,
        show (e :: rest).filter (fun p => (mapGet initialState.actionToBinding p.1).isSome)
          = rest.filter (fun p => (mapGet initialState.actionToBinding p.1).isSome) by
          simp [List.filter_cons, hk]]
      exact ih t hpres

/-- The registry part of a manager state: both indices and the default
table, everything except the persisted value. -/
def regOf (s : ManagerState) :
    List (String × KeyBinding) × List (String × KeyBinding) × List (String × KeyBinding) :=
  (s.bindings, s.actionToBinding, s.defaultByAction)

theorem regOf_applyOverrideEntry_congr {t t' : ManagerState} (h : regOf t = regOf t')
    (e : String × Override) : regOf (applyOverrideEntry t e) = regOf (applyOverrideEntry t' e) := by
  have hb : t.bindings = t'.bindings := congrArg (fun x => x.1) h
  have ha : t.actionToBinding = t'.actionToBinding := congrArg (fun x => x.2.1) h
  have hd : t.defaultByAction = t'.defaultByAction := congrArg (fun x => x.2.2) h
  unfold applyOverrideEntry
  rw [ha]
  cases hg : mapGet t'.actionToBinding e.1 with
  | none => exact h
  | some cur =>
    have hgt : mapGet t.actionToBinding e.1 = some cur := by
      rw [ha]
      exact hg
    unfold regOf
    rw [show (applyBinding t e.1 (resolveOverride e.2 cur)).bindings
        = mapSet (mapDelete t.bindings (getBindingKey cur))
            (getBindingKey (resolveOverride e.2 cur)) (resolveOverride e.2 cur) from
        applyBinding_bindings_of_some hgt _,
      show (applyBinding t' e.1 (resolveOverride e.2 cur)).bindings
        = mapSet (mapDelete t'.bindings (getBindingKey cur))
            (getBindingKey (resolveOverride e.2 cur)) (resolveOverride e.2 cur) from
        applyBinding_bindings_of_some hg _,
      applyBinding_actionToBinding, applyBinding_actionToBinding,
      applyBinding_defaultByAction, applyBinding_defaultByAction, hb, ha, hd]

theorem regOf_loadFold_congr (es : List (String × Override)) :
    ∀ t t' : ManagerState, regOf t = regOf t' →
      regOf (es.foldl applyOverrideEntry t) = regOf (es.foldl applyOverrideEntry t') := by
  induction es with
  | nil => intro t t' h; exact h
  | cons e rest ih =>
    intro t t' h
    exact ih _ _ (regOf_applyOverrideEntry_congr h e)

/-! ### Claim C1 -/

/-- C1, counterexample.  The claim says every mutation path (rebind, reset,
resetAll) routes through the conflict check, so that invariant I2 holds after
every mutation sequence from the default table.  It is false: `resetBinding`
applies the default with no conflict check.  After rebinding RETURN_TO_VIEW
to ctrl+j, rebinding CREATE_NOTE to the freed ctrl+q, and then resetting
RETURN_TO_VIEW (back to its default ctrl+q), two registry bindings encode to
`ctrl-q`, violating I2. -/
theorem c1_counterexample :
    ¬ I2atb (runRegOps initialState
      [RegOp.rebind "RETURN_TO_VIEW" ⟨"j", true, false, false⟩,
       RegOp.rebind "CREATE_NOTE" ⟨"q", true, false, false⟩,
       RegOp.reset "RETURN_TO_VIEW"]) := by decide

/-- C1, amended.  Invariant I2 (no two registry bindings encode to the same
combo) is preserved by every sequence of `setBinding` (rebind) mutations
from the default table: `setBinding` is the mutation path that routes
through `hasConflict`.  The reset paths bypass the check and can break I2
(see the counterexample). -/
theorem c1_amended (ops : List (String × KeyUpdate)) :
    I2atb (runSetOps initialState ops) := by
  have h := shapeReg_runSetOps ops initialState shape_initialState reg_initialState
  exact I2atb_of_invariants h.1 h.2

/-! ### Claim C2 -/

/-- C2, counterexample.  The claim says a conflicting rebind's failure
identifies the owning action (a ConflictError naming it).  In the code
`setBinding` returns the bare boolean `false`: rebinding RETURN_TO_VIEW to
ctrl+b (owned by OPEN_SETTINGS) and to ctrl+h (owned by RETURN_TO_NOTES)
produce entirely identical results — `(false, unchanged registry)` — so the
failure cannot identify which action owns the combo, and no error value
naming OPEN_SETTINGS exists. -/
theorem c2_counterexample :
    (setBinding initialState "RETURN_TO_VIEW" ⟨"b", true, false, false⟩
      = setBinding initialState "RETURN_TO_VIEW" ⟨"h", true, false, false⟩) ∧
    (setBinding initialState "RETURN_TO_VIEW" ⟨"b", true, false, false⟩).1 = false ∧
    mapGet initialState.bindings "ctrl-b"
      = some ⟨"b", true, false, false, "OPEN_SETTINGS", "Settings Menu"⟩ ∧
    mapGet initialState.bindings "ctrl-h"
      = some ⟨"h", true, false, false, "RETURN_TO_NOTES", "Return to All Notes menu"⟩ := by
  decide

/-- C2, amended.  For every action `a` whose candidate combo's encoding is
owned in the combo index by a binding of a different action, `setBinding`
fails returning `false` and leaves the registry byte-for-byte unchanged (no
partial mutation, no store write); the failure signal is only that boolean
and does not name the owning action.  In particular, from the default
table, rebinding RETURN_TO_VIEW to ctrl+b (owned by OPEN_SETTINGS) returns
`false` with the state unchanged (see the witness). -/
theorem c2_amended (s : ManagerState) (a : String) (u : KeyUpdate)
    (cur owner : KeyBinding)
    (hcur : mapGet s.actionToBinding a = some cur)
    (howner : mapGet s.bindings (getBindingKey (candidateOf cur u)) = some owner)
    (hne : owner.action ≠ a) :
    setBinding s a u = (false, s) := by
  have hc : hasConflict s (candidateOf cur u) (some a) = true := by
    unfold hasConflict
    rw [howner]
    exact decide_eq_true (fun h => hne (Option.some.inj h).symm)
  exact setBinding_of_conflict u hcur hc

/-- C2, witness: the amended theorem at the default table,
rebinding RETURN_TO_VIEW onto OPEN_SETTINGS's ctrl+b. -/
theorem c2_witness :
    setBinding initialState "RETURN_TO_VIEW" ⟨"b", true, false, false⟩
      = (false, initialState) :=
  c2_amended initialState "RETURN_TO_VIEW" ⟨"b", true, false, false⟩
    ⟨"q", true, false, false, "RETURN_TO_VIEW", "Return from edit to view note"⟩
    ⟨"b", true, false, false, "OPEN_SETTINGS", "Settings Menu"⟩
    (by decide) (by decide) (by decide)

/-! ### Claim C3 -/

/-- C3, counterexample.  The claim quantifies over every candidate combo
owned by no *other* action and asserts that after the rebind the lookup of
the action's previous combo is `none`.  Rebinding CREATE_NOTE to its own
current combo ctrl+a is in that scope (ctrl+a is owned by CREATE_NOTE
itself, no other action): the rebind succeeds, but the previous combo
ctrl+a then looks up to CREATE_NOTE's binding, not `none`. -/
theorem c3_counterexample :
    (setBinding initialState "CREATE_NOTE" ⟨"a", true, false, false⟩).1 = true ∧
    mapGet (setBinding initialState "CREATE_NOTE" ⟨"a", true, false, false⟩).2.bindings
        "ctrl-a"
      = some ⟨"a", true, false, false, "CREATE_NOTE", "Create new note"⟩ := by
  decide

/-- C3, amended.  For every action `a` with current binding `cur` and
candidate owned by no other action, provided the candidate's encoding
differs from the current one, `setBinding` succeeds, the candidate is then
found under its encoding (and it is `a`'s binding), and the lookup of the
previous combo returns `none`.  The default-table instance
rebind(CREATE_NOTE, ctrl+k) is the witness. -/
theorem c3_amended (s : ManagerState) (a : String) (u : KeyUpdate) (cur : KeyBinding)
    (hcur : mapGet s.actionToBinding a = some cur)
    (hact : cur.action = a)
    (hfree : ((mapGet s.bindings (getBindingKey (candidateOf cur u))).all
      fun b => b.action == a) = true)
    (hdiff : getBindingKey (candidateOf cur u) ≠ getBindingKey cur) :
    (setBinding s a u).1 = true ∧
    mapGet (setBinding s a u).2.bindings (getBindingKey (candidateOf cur u))
      = some (candidateOf cur u) ∧
    (candidateOf cur u).action = a ∧
    mapGet (setBinding s a u).2.bindings (getBindingKey cur) = none := by
  have hc : hasConflict s (candidateOf cur u) (some a) = false := by
    unfold hasConflict
    cases hx : mapGet s.bindings (getBindingKey (candidateOf cur u)) with
    | none => rfl
    | some ex =>
      rw [hx] at hfree
      have hexa : ex.action = a := by simpa using hfree
      simp [hexa]
  rw [setBinding_of_ok u hcur hc]
  have hbnd : (saveOverridesToStorage (applyBinding s a (candidateOf cur u))).bindings
      = mapSet (mapDelete s.bindings (getBindingKey cur))
          (getBindingKey (candidateOf cur u)) (candidateOf cur u) := by
    rw [saveOverridesToStorage_bindings, applyBinding_bindings_of_some hcur]
  refine ⟨rfl, ?_, hact, ?_⟩
  · rw [hbnd]
    exact mapGet_mapSet_self _ _ _
  · rw [hbnd, mapGet_mapSet_ne _ _ (Ne.symm hdiff)]
    exact mapGet_mapDelete_self _ _

/-- C3, witness: rebind(CREATE_NOTE, ctrl+k) from the default table
succeeds, ctrl+k then maps to CREATE_NOTE's binding, and ctrl+a maps to
nothing. -/
theorem c3_witness :
    (setBinding initialState "CREATE_NOTE" ⟨"k", true, false, false⟩).1 = true ∧
    mapGet (setBinding initialState "CREATE_NOTE" ⟨"k", true, false, false⟩).2.bindings
        (getBindingKey (candidateOf
          ⟨"a", true, false, false, "CREATE_NOTE", "Create new note"⟩
          ⟨"k", true, false, false⟩))
      = some (candidateOf ⟨"a", true, false, false, "CREATE_NOTE", "Create new note"⟩
          ⟨"k", true, false, false⟩) ∧
    (candidateOf ⟨"a", true, false, false, "CREATE_NOTE", "Create new note"⟩
      ⟨"k", true, false, false⟩).action = "CREATE_NOTE" ∧
    mapGet (setBinding initialState "CREATE_NOTE" ⟨"k", true, false, false⟩).2.bindings
        (getBindingKey ⟨"a", true, false, false, "CREATE_NOTE", "Create new note"⟩) = none :=
  c3_amended initialState "CREATE_NOTE" ⟨"k", true, false, false⟩
    ⟨"a", true, false, false, "CREATE_NOTE", "Create new note"⟩
    (by decide) (by decide) (by decide) (by decide)

/-! ### Claim C4 -/

/-- C4, confirmed.  For every registry reached from the default table by a
sequence of rebinds (`runSetOps` applies each `setBinding`; failed calls
leave the state unchanged, so the reached states are exactly those of the
successful rebinds), saving the overrides and constructing a fresh manager
from the persisted value yields the same full binding set — `getBindings`,
one binding per action in the stable default order — as the saved
registry. -/
theorem c4_roundtrip (ops : List (String × KeyUpdate)) :
    getBindings (mkManager (saveOverridesToStorage (runSetOps initialState ops)).storage)
      = getBindings (runSetOps initialState ops) := by
  have hS := (shapeReg_runSetOps ops initialState shape_initialState reg_initialState).1
  unfold getBindings
  rw [roundtrip_atb hS]

/-! ### Claim C5 -/

/-- C5, counterexample.  The claim says that when two persisted overrides
resolve to the same combo, the earlier action no longer occupies that combo
anywhere in the registry and I1/I2 still hold.  Loading the hand-edited
record {CREATE_NOTE: ctrl+m, RETURN_TO_VIEW: ctrl+m} leaves CREATE_NOTE
still bound to ctrl+m in the action index, and two registry bindings encode
to the same combo: I2 fails. -/
theorem c5_counterexample :
    mapGet (mkManager (StoredValue.record
        [("CREATE_NOTE", ⟨some "m", some true, some false, some false⟩),
         ("RETURN_TO_VIEW", ⟨some "m", some true, some false, some false⟩)])).actionToBinding
        "CREATE_NOTE"
      = some ⟨"m", true, false, false, "CREATE_NOTE", "Create new note"⟩ ∧
    ¬ I2atb (mkManager (StoredValue.record
        [("CREATE_NOTE", ⟨some "m", some true, some false, some false⟩),
         ("RETURN_TO_VIEW", ⟨some "m", some true, some false, some false⟩)])) := by
  decide

/-- C5, amended.  When the persisted record maps the earlier CREATE_NOTE and
the later RETURN_TO_VIEW to the same combo ctrl+`k` (any key `k`), the later
override wins in the combo index — lookup of the combo returns
RETURN_TO_VIEW's binding — but the earlier action still holds that combo in
the action index, so invariant I2 (and hence I1) is violated rather than
preserved. -/
theorem c5_amended (k : String) :
    mapGet (mkManager (StoredValue.record
        [("CREATE_NOTE", ⟨some k, some true, some false, some false⟩),
         ("RETURN_TO_VIEW", ⟨some k, some true, some false, some false⟩)])).bindings
        ("ctrl-" ++ k)
      = some ⟨k, true, false, false, "RETURN_TO_VIEW", "Return from edit to view note"⟩ ∧
    mapGet (mkManager (StoredValue.record
        [("CREATE_NOTE", ⟨some k, some true, some false, some false⟩),
         ("RETURN_TO_VIEW", ⟨some k, some true, some false, some false⟩)])).actionToBinding
        "CREATE_NOTE"
      = some ⟨k, true, false, false, "CREATE_NOTE", "Create new note"⟩ ∧
    ¬ I2atb (mkManager (StoredValue.record
        [("CREATE_NOTE", ⟨some k, some true, some false, some false⟩),
         ("RETURN_TO_VIEW", ⟨some k, some true, some false, some false⟩)])) := by
  have hatb : (mkManager (StoredValue.record
        [("CREATE_NOTE", ⟨some k, some true, some false, some false⟩),
         ("RETURN_TO_VIEW", ⟨some k, some true, some false, some false⟩)])).actionToBinding
      = mapSet (mapSet initialState.actionToBinding "CREATE_NOTE"
          ⟨k, true, false, false, "CREATE_NOTE", "Create new note"⟩)
          "RETURN_TO_VIEW"
          ⟨k, true, false, false, "RETURN_TO_VIEW", "Return from edit to view note"⟩ := rfl
  have hbind : (mkManager (StoredValue.record
        [("CREATE_NOTE", ⟨some k, some true, some false, some false⟩),
         ("RETURN_TO_VIEW", ⟨some k, some true, some false, some false⟩)])).bindings
      = mapSet (mapDelete (mapSet (mapDelete initialState.bindings "ctrl-a")
          (getBindingKey ⟨k, true, false, false, "CREATE_NOTE", "Create new note"⟩)
          ⟨k, true, false, false, "CREATE_NOTE", "Create new note"⟩) "ctrl-q")
          (getBindingKey ⟨k, true, false, false, "RETURN_TO_VIEW",
            "Return from edit to view note"⟩)
          ⟨k, true, false, false, "RETURN_TO_VIEW", "Return from edit to view note"⟩ := rfl
  have hg1 : mapGet (mkManager (StoredValue.record
        [("CREATE_NOTE", ⟨some k, some true, some false, some false⟩),
         ("RETURN_TO_VIEW", ⟨some k, some true, some false, some false⟩)])).bindings
        ("ctrl-" ++ k)
      = some ⟨k, true, false, false, "RETURN_TO_VIEW", "Return from edit to view note"⟩ := by
    rw [hbind]
    exact mapGet_mapSet_self _ _ _
  have hg2 : mapGet (mkManager (StoredValue.record
        [("CREATE_NOTE", ⟨some k, some true, some false, some false⟩),
         ("RETURN_TO_VIEW", ⟨some k, some true, some false, some false⟩)])).actionToBinding
        "CREATE_NOTE"
      = some ⟨k, true, false, false, "CREATE_NOTE", "Create new note"⟩ := by
    rw [hatb, mapGet_mapSet_ne _ _ (by decide : ("CREATE_NOTE" : String) ≠ "RETURN_TO_VIEW")]
    exact mapGet_mapSet_self _ _ _
  have hg3 : mapGet (mkManager (StoredValue.record
        [("CREATE_NOTE", ⟨some k, some true, some false, some false⟩),
         ("RETURN_TO_VIEW", ⟨some k, some true, some false, some false⟩)])).actionToBinding
        "RETURN_TO_VIEW"
      = some ⟨k, true, false, false, "RETURN_TO_VIEW", "Return from edit to view note"⟩ := by
    rw [hatb]
    exact mapGet_mapSet_self _ _ _
  refine ⟨hg1, hg2, ?_⟩
  intro h
  have hpq := h _ (mem_of_mapGet_eq_some hg2) _ (mem_of_mapGet_eq_some hg3) rfl
  have hfst : ("CREATE_NOTE" : String) = "RETURN_TO_VIEW" := congrArg Prod.fst hpq
  exact absurd hfst (by decide)

/-! ### Claim C6 -/

/-- C6, confirmed.  For every key-down event whose focus target is a
text-editing surface, an event that looks up to the binding owning UNDO is
passed through — native behavior is not suppressed and no listener is
invoked — while an event that looks up to the OPEN_SPOTLIGHT_SEARCH binding
is suppressed and that action's listeners run. -/
theorem c6_scoping (s : ManagerState) (ls : List (String × List String))
    (e₁ e₂ : KeydownEvent) (b₁ b₂ : KeyBinding)
    (h1 : isInputElement e₁ = true) (h2 : isInputElement e₂ = true)
    (hb1 : mapGet s.bindings (encodeEvent e₁) = some b₁) (ha1 : b₁.action = "UNDO")
    (hb2 : mapGet s.bindings (encodeEvent e₂) = some b₂)
    (ha2 : b₂.action = "OPEN_SPOTLIGHT_SEARCH") :
    handleKeydown s true e₁ = .pass ∧
    suppressesNative (handleKeydown s true e₁) = false ∧
    invokedListeners ls (handleKeydown s true e₁) = [] ∧
    handleKeydown s true e₂ = .execute "OPEN_SPOTLIGHT_SEARCH" ∧
    suppressesNative (handleKeydown s true e₂) = true ∧
    invokedListeners ls (handleKeydown s true e₂)
      = (mapGet ls "OPEN_SPOTLIGHT_SEARCH").getD [] := by
  have r1 : handleKeydown s true e₁ = .pass := by
    unfold handleKeydown
    rw [hb1]
    simp only [h1, ha1]
    decide
  have r2 : handleKeydown s true e₂ = .execute "OPEN_SPOTLIGHT_SEARCH" := by
    unfold handleKeydown
    rw [hb2]
    simp only [h2, ha2]
    decide
  refine ⟨r1, ?_, ?_, r2, ?_, ?_⟩
  · rw [r1]
    rfl
  · rw [r1]
    rfl
  · rw [r2]
    rfl
  · rw [r2]
    rfl

/-- C6, witness: in the default table, with focus in an INPUT element,
ctrl+z (UNDO) invokes nothing and stays unsuppressed while ctrl+s
(OPEN_SPOTLIGHT_SEARCH) is suppressed and its registered listener runs. -/
theorem c6_witness :
    handleKeydown initialState true ⟨"z", true, false, false, "INPUT", "false"⟩ = .pass ∧
    suppressesNative
      (handleKeydown initialState true ⟨"z", true, false, false, "INPUT", "false"⟩) = false ∧
    invokedListeners [("OPEN_SPOTLIGHT_SEARCH", ["spotlight-listener"])]
      (handleKeydown initialState true ⟨"z", true, false, false, "INPUT", "false"⟩) = [] ∧
    handleKeydown initialState true ⟨"s", true, false, false, "TEXTAREA", "false"⟩
      = .execute "OPEN_SPOTLIGHT_SEARCH" ∧
    suppressesNative
      (handleKeydown initialState true ⟨"s", true, false, false, "TEXTAREA", "false"⟩)
      = true ∧
    invokedListeners [("OPEN_SPOTLIGHT_SEARCH", ["spotlight-listener"])]
      (handleKeydown initialState true ⟨"s", true, false, false, "TEXTAREA", "false"⟩)
      = (mapGet [("OPEN_SPOTLIGHT_SEARCH", ["spotlight-listener"])]
          "OPEN_SPOTLIGHT_SEARCH").getD [] :=
  c6_scoping initialState [("OPEN_SPOTLIGHT_SEARCH", ["spotlight-listener"])]
    ⟨"z", true, false, false, "INPUT", "false"⟩
    ⟨"s", true, false, false, "TEXTAREA", "false"⟩
    ⟨"z", true, false, false, "UNDO", "Undo"⟩
    ⟨"s", true, false, false, "OPEN_SPOTLIGHT_SEARCH", "Search for text (Spotlight)"⟩
    (by decide) (by decide) (by decide) (by decide) (by decide) (by decide)

/-! ### Claim C7 -/

/-- C7, code-bug evidence.  The claim (and the modal's own caption, "Press
the new key combination… (Esc to cancel)") says that while capturing, an
Escape key-down cancels: back to idle, no registry mutation, no store
write.  The capture handler has no Escape branch: with the capture state on
CREATE_NOTE and a plain Escape key-down over the default registry, it calls
`setBinding` with key "escape", which succeeds — the capture state does
return to idle, but CREATE_NOTE is rebound to the bare Escape key and the
override record is written to storage. -/
theorem c7_escape_capture_rebinds :
    (handleKeyCapture (some "CREATE_NOTE") initialState
        ⟨"Escape", false, false, false, "DIV", "false"⟩).1 = none ∧
    mapGet (handleKeyCapture (some "CREATE_NOTE") initialState
        ⟨"Escape", false, false, false, "DIV", "false"⟩).2.actionToBinding "CREATE_NOTE"
      = some ⟨"escape", false, false, false, "CREATE_NOTE", "Create new note"⟩ ∧
    (handleKeyCapture (some "CREATE_NOTE") initialState
        ⟨"Escape", false, false, false, "DIV", "false"⟩).2.storage
      = StoredValue.record
          [("CREATE_NOTE", ⟨some "escape", some false, some false, some false⟩)] ∧
    (handleKeyCapture (some "CREATE_NOTE") initialState
        ⟨"Escape", false, false, false, "DIV", "false"⟩).2 ≠ initialState := by
  decide

/-! ### Claim C8 -/

/-- C8, confirmed.  If the persisted value is absent or fails parsing, the
constructor treats it as the empty override set: the constructed manager's
registry (both indices and the default table) equals the default-table
registry, and construction is total — no error propagates to startup. -/
theorem c8_corruption_tolerated (v : StoredValue)
    (hv : v = StoredValue.absent ∨ v = StoredValue.unparsable) :
    (mkManager v).bindings = initialState.bindings ∧
    (mkManager v).actionToBinding = initialState.actionToBinding ∧
    (mkManager v).defaultByAction = initialState.defaultByAction := by
  rcases hv with h | h <;> subst h <;> exact ⟨rfl, rfl, rfl⟩

/-- C8, witness: an unparsable store yields the default-table registry. -/
theorem c8_witness :
    (mkManager StoredValue.unparsable).bindings = initialState.bindings ∧
    (mkManager StoredValue.unparsable).actionToBinding = initialState.actionToBinding ∧
    (mkManager StoredValue.unparsable).defaultByAction = initialState.defaultByAction :=
  c8_corruption_tolerated StoredValue.unparsable (Or.inr rfl)

/-! ### Claim C9 -/

/-- C9, counterexample.  The claim says the encoder lowercases the key
symbol before encoding, so a combo with key "A" encodes like one with key
"a".  `getBindingKey` uses the key exactly as stored: the encodings are
"ctrl-A" and "ctrl-a", which differ. -/
theorem c9_counterexample :
    getBindingKey ⟨"A", true, false, false, "CREATE_NOTE", "Create new note"⟩
      ≠ getBindingKey ⟨"a", true, false, false, "CREATE_NOTE", "Create new note"⟩ := by
  decide

/-- C9, amended.  The encoder is deterministic — it depends only on the key
symbol and the three modifier flags, never on action or description — and
emits the modifiers in the fixed order ctrl, shift, alt; but it does not
lowercase the key symbol itself.  Lowercasing is performed by its callers
before encoding: the event path encodes exactly the event's lowercased key
with the same fixed modifier order (second conjunct; `setBinding` likewise
lowercases the update key when building its candidate). -/
theorem c9_amended :
    (∀ b₁ b₂ : KeyBinding, b₁.key = b₂.key → b₁.ctrl = b₂.ctrl → b₁.shift = b₂.shift →
      b₁.alt = b₂.alt → getBindingKey b₁ = getBindingKey b₂) ∧
    (∀ e : KeydownEvent, encodeEvent e
      = getBindingKey ⟨jsToLower e.key, e.ctrlKey, e.shiftKey, e.altKey, "", ""⟩) ∧
    (∀ k a d : String, getBindingKey ⟨k, true, true, true, a, d⟩ = "ctrl+shift+alt-" ++ k) := by
  refine ⟨?_, ?_, ?_⟩
  · intro b₁ b₂ hk hc hs ha
    unfold getBindingKey
    rw [hk, hc, hs, ha]
  · intro e
    rfl
  · intro k a d
    rfl

/-- C9, witness: the encoder ignores action and description, the event
encoder agrees with `getBindingKey` on the lowercased key, and the
all-modifiers prefix comes out in the fixed order. -/
theorem c9_witness :
    getBindingKey ⟨"a", true, false, false, "CREATE_NOTE", "Create new note"⟩
      = getBindingKey ⟨"a", true, false, false, "OPEN_EXPORT", "Export menu"⟩ ∧
    encodeEvent ⟨"S", true, false, false, "BODY", "false"⟩
      = getBindingKey ⟨jsToLower "S", true, false, false, "", ""⟩ ∧
    getBindingKey ⟨"z", true, true, true, "UNDO", "Undo"⟩ = "ctrl+shift+alt-z" :=
  ⟨c9_amended.1 _ _ rfl rfl rfl rfl, c9_amended.2.1 _, c9_amended.2.2 "z" "UNDO" "Undo"⟩

/-! ### Claim C10 -/

/-- C10, confirmed.  Loading a persisted record ignores entries whose action
is not a known action of the default table: the registry built from any
record equals (in both indices and the default table) the registry built
from the record restricted to known actions — unknown entries cause no
error and leave the registry unaffected. -/
theorem c10_unknown_actions_ignored (entries : List (String × Override)) :
    regOf (mkManager (StoredValue.record entries))
      = regOf (mkManager (StoredValue.record
          (entries.filter fun p => (mapGet initialState.actionToBinding p.1).isSome))) := by
  refine Eq.trans (regOf_loadFold_congr entries
    (loadDefaultBindings (emptyState (StoredValue.record entries)))
    (loadDefaultBindings (emptyState (StoredValue.record
      (entries.filter fun p => (mapGet initialState.actionToBinding p.1).isSome))))
    rfl) ?_
  rw [loadFold_filter_known entries
    (loadDefaultBindings (emptyState (StoredValue.record
      (entries.filter fun p => (mapGet initialState.actionToBinding p.1).isSome))))
    (fun a => rfl)]
  exact rfl

end Lychee
